import Mathlib

/-! The wasm boundary shim of the cube solver (`src/wasm/solver.cpp`)

A shallow embedding of the two exported functions, `validate_scramble` and
`get_hint`, and the properties of the hint copy: what lands in the caller's
buffer, what is returned, and which offsets are stored to.

The output pointer `out` is modelled as the memory that starts at it: a map
from a byte offset to the byte held there.  The caller's declared capacity
`out_len` is only a number handed to the function, so a store at an offset at
or beyond it is visible in the model as a store like any other.
-/

namespace Solver

/-! ## Machine integers -/

/-- Wrap an integer into the range of a 32-bit two's-complement `int`. -/
def wrapI32 (x : Int) : Int := (x + 2147483648) % 4294967296 - 2147483648

/-- The 32-bit signed subtraction, computed modulo `2^32`. -/
def subI32 (a b : Int) : Int := wrapI32 (a - b)

/-- An integer is a value of the C type `int` (32 bits on wasm32). -/
def IsI32 (x : Int) : Prop := -2147483648 ≤ x ∧ x ≤ 2147483647

instance (x : Int) : Decidable (IsI32 x) := by unfold IsI32; infer_instance

/-! ## The string literal -/

/-- The characters between the quotes of the literal bound to `hint`. -/
def hintText : String := "Look for a simple pair to start."

/-- The bytes of the C string literal `hint`: its characters (all ASCII, one
byte each), then the terminating `'\0'` that the compiler appends. -/
def hint : List Nat := hintText.toList.map Char.toNat ++ [0]

/-- The read `hint[i]`. -/
def hintAt (i : Nat) : Nat := hint.getD i 0

/-! ## The output buffer -/

/-- The memory starting at `out`, with the record of the offsets stored to
(oldest first). -/
structure Out where
  mem : Nat → Nat
  writes : List Nat

/-- The assignment `out[i] = v`. -/
def Out.store (o : Out) (i : Nat) (v : Nat) : Out :=
  { mem := fun k => if k = i then v else o.mem k
    writes := o.writes ++ [i] }

/-- The first `n` bytes of a memory. -/
def bytes (m : Nat → Nat) (n : Nat) : List Nat := (List.range n).map m

/-! ## The exported functions -/

/-- The export `int validate_scramble(const char*)`: the argument is unnamed and
unused. -/
def validate_scramble (_scramble : String) : Int := 1

theorem hintAt_ne_zero_lt (i : Nat) (h : hintAt i ≠ 0) : i < hint.length := by
  by_contra hge
  exact h (List.getD_eq_default _ _ (Nat.le_of_not_lt hge))

/-- The `for` loop of `get_hint`, entered with the counter at `i`:
`for (; hint[i] != '\0' && i < out_len - 1; i++) out[i] = hint[i];`.
Returns the counter and the buffer at exit. -/
def loop (out_len : Int) (i : Nat) (o : Out) : Nat × Out :=
  if h : hintAt i ≠ 0 ∧ (i : Int) < subI32 out_len 1 then
    loop out_len (i + 1) (o.store i (hintAt i))
  else
    (i, o)
termination_by hint.length - i
decreasing_by
  have := hintAt_ne_zero_lt i h.1
  omega

/-- What a call of `get_hint` leaves behind: the memory at `out`, the offsets
it stored to, and the returned `int`. -/
structure Result where
  out : Nat → Nat
  writes : List Nat
  ret : Int

/-- The export `int get_hint(const char*, char* out, int out_len)`: the loop from
`i = 0`, then `out[i] = '\0'; return i;`.  The first argument is unnamed and
unused. -/
def get_hint (_scramble : String) (out : Nat → Nat) (out_len : Int) : Result :=
  let r := loop out_len 0 { mem := out, writes := [] }
  let o := r.2.store r.1 0
  { out := o.mem, writes := o.writes, ret := (r.1 : Int) }

/-! ## The loop in closed form -/

/-- The number of characters the loop copies when called with `out_len`. -/
def copied (out_len : Int) : Nat := min 32 (subI32 out_len 1).toNat

theorem hint_length : hint.length = 33 := by decide

theorem hintAt_ne_zero : ∀ k < 32, hintAt k ≠ 0 := by decide

theorem hintAt_end : hintAt 32 = 0 := by decide

theorem copied_le (out_len : Int) : copied out_len ≤ 32 := Nat.min_le_left _ _

theorem loop_exit (out_len : Int) (o : Out) :
    loop out_len (copied out_len) o = (copied out_len, o) := by
  rw [loop]
  have hstop : ¬ (hintAt (copied out_len) ≠ 0 ∧
      ((copied out_len : Nat) : Int) < subI32 out_len 1) := by
    rintro ⟨h0, hlt⟩
    have hle := copied_le out_len
    have hne : copied out_len ≠ 32 := fun e => h0 (e ▸ hintAt_end)
    unfold copied at hle hne hlt
    omega
  rw [dif_neg hstop]

theorem loop_closed (out_len : Int) (d : Nat) : ∀ (i : Nat) (o : Out),
    i + d = copied out_len →
    loop out_len i o =
      (copied out_len,
        { mem := fun k => if i ≤ k ∧ k < copied out_len then hintAt k else o.mem k
          writes := o.writes ++ List.range' i d }) := by
  induction d with
  | zero =>
    intro i o hi
    have hi : i = copied out_len := by omega
    subst hi
    rw [loop_exit]
    have hmem : (fun k => if copied out_len ≤ k ∧ k < copied out_len then hintAt k
        else o.mem k) = o.mem := by
      funext k
      have : ¬ (copied out_len ≤ k ∧ k < copied out_len) := by omega
      rw [if_neg this]
    rw [hmem]
    simp
  | succ d ih =>
    intro i o hi
    have hgo : hintAt i ≠ 0 ∧ (i : Int) < subI32 out_len 1 := by
      have hle := copied_le out_len
      refine ⟨hintAt_ne_zero i (by omega), ?_⟩
      unfold copied at hi hle
      omega
    rw [loop, dif_pos hgo, ih (i + 1) _ (by omega)]
    congr 2
    · funext k
      simp only [Out.store]
      by_cases h1 : k = i
      · subst h1
        have : k ≤ k ∧ k < copied out_len := by omega
        simp [this]
      · by_cases h2 : i ≤ k ∧ k < copied out_len
        · have : i + 1 ≤ k ∧ k < copied out_len := by omega
          simp [h2, this]
        · have : ¬ (i + 1 ≤ k ∧ k < copied out_len) := by omega
          simp [h1, h2, this]
    · simp [Out.store, List.range'_succ]

/-- The whole call in closed form: the copied characters, the terminator
right after them, and every other byte as it was. -/
theorem get_hint_closed (s : String) (out : Nat → Nat) (out_len : Int) :
    get_hint s out out_len =
      { out := fun k => if k < copied out_len then hintAt k
                        else if k = copied out_len then 0 else out k
        writes := List.range (copied out_len + 1)
        ret := (copied out_len : Int) } := by
  unfold get_hint
  rw [loop_closed out_len (copied out_len) 0 _ (by omega)]
  simp only [Out.store, List.nil_append, Nat.zero_le, true_and]
  congr 1
  · funext k
    by_cases h1 : k = copied out_len
    · simp [h1]
    · simp [h1]
  · rw [List.range_eq_range', List.range'_concat]
    simp

theorem bytes_congr (f g : Nat → Nat) (n : Nat) (h : ∀ k < n, f k = g k) :
    bytes f n = bytes g n := by
  unfold bytes
  exact List.map_congr_left (fun k hk => h k (List.mem_range.mp hk))

theorem hint_bytes : bytes hintAt 33 = hintText.toList.map Char.toNat ++ [0] := by decide

theorem hint_take : ∀ n ≤ 32,
    bytes hintAt n = (hintText.toList.map Char.toNat).take n := by decide

theorem hintText_length : hintText.length = 32 := by decide

theorem subI32_one (cap : Int) (h : IsI32 cap) (hmin : cap ≠ -2147483648) :
    subI32 cap 1 = cap - 1 := by
  unfold IsI32 at h
  unfold subI32 wrapI32
  omega

theorem copied_full (cap : Int) (hcap : 33 ≤ cap) (hi : IsI32 cap) : copied cap = 32 := by
  unfold copied
  rw [subI32_one cap hi (by omega)]
  omega

theorem copied_short (cap : Int) (h1 : 1 ≤ cap) (h2 : cap ≤ 33) :
    copied cap = (cap - 1).toNat := by
  unfold copied
  rw [subI32_one cap (by unfold IsI32; omega) (by omega)]
  omega

/-! ## The hint copy -/

/-- Claim C1: when the capacity is at least the length of the hint plus one, the
buffer after `get_hint` begins with exactly the bytes of the literal
"Look for a simple pair to start." followed at once by a null byte, whatever
the scramble and whatever the buffer held before. -/
theorem get_hint_writes_whole_hint (s : String) (out : Nat → Nat) (cap : Int)
    (hi : IsI32 cap) (hcap : (hintText.length : Int) + 1 ≤ cap) :
    bytes (get_hint s out cap).out (hintText.length + 1) =
      "Look for a simple pair to start.".toList.map Char.toNat ++ [0] := by
  rw [hintText_length] at hcap ⊢
  have hc : copied cap = 32 := copied_full cap (by omega) hi
  rw [get_hint_closed, hc]
  have hb : bytes (fun k => if k < 32 then hintAt k else if k = 32 then 0 else out k) 33
      = bytes hintAt 33 := by
    apply bytes_congr
    intro k hk
    by_cases h : k < 32
    · simp [h]
    · have : k = 32 := by omega
      subst this
      simp [hintAt_end]
  exact hb.trans hint_bytes

theorem get_hint_writes_whole_hint_witness :
    IsI32 40 ∧ (hintText.length : Int) + 1 ≤ 40 ∧
    bytes (get_hint "R U R2" (fun _ => 170) 40).out (hintText.length + 1) =
      "Look for a simple pair to start.".toList.map Char.toNat ++ [0] :=
  ⟨by decide, by decide,
    get_hint_writes_whole_hint "R U R2" (fun _ => 170) 40 (by decide) (by decide)⟩

/-- Claim C2, as stated, fails: with capacity 40 (at least the hint length plus
one) the call returns a value other than 33, and the literal is not 33
characters long. -/
theorem get_hint_ret_ne_33 :
    IsI32 40 ∧ (hintText.length : Int) + 1 ≤ 40 ∧
    (get_hint "R U R2" (fun _ => 170) 40).ret ≠ 33 ∧ hintText.length ≠ 33 := by
  refine ⟨by decide, by decide, ?_, by decide⟩
  rw [get_hint_closed, copied_full 40 (by decide) (by decide)]
  decide

/-- Claim C2, amended: when the capacity is at least the length of the hint plus
one, `get_hint` returns 32, and 32 is the length of the literal hint string. -/
theorem get_hint_ret_full (s : String) (out : Nat → Nat) (cap : Int)
    (hi : IsI32 cap) (hcap : (hintText.length : Int) + 1 ≤ cap) :
    (get_hint s out cap).ret = 32 ∧ hintText.length = 32 := by
  rw [hintText_length] at hcap
  rw [get_hint_closed, copied_full cap (by omega) hi]
  exact ⟨rfl, hintText_length⟩

theorem get_hint_ret_full_witness :
    IsI32 33 ∧ (hintText.length : Int) + 1 ≤ 33 ∧
    ((get_hint "" (fun _ => 0) 33).ret = 32 ∧ hintText.length = 32) :=
  ⟨by decide, by decide, get_hint_ret_full "" (fun _ => 0) 33 (by decide) (by decide)⟩

/-- Claim C3: when the capacity lies strictly between 1 and the length of the
hint, the buffer after `get_hint` begins with the first `cap - 1` characters of
the hint, holds a null byte at offset `cap - 1`, and the call returns
`cap - 1`. -/
theorem get_hint_truncates (s : String) (out : Nat → Nat) (cap : Int)
    (h1 : 1 < cap) (h2 : cap < (hintText.length : Int)) :
    bytes (get_hint s out cap).out (cap - 1).toNat =
        (hintText.toList.map Char.toNat).take (cap - 1).toNat ∧
    (get_hint s out cap).out (cap - 1).toNat = 0 ∧
    (get_hint s out cap).ret = cap - 1 := by
  rw [hintText_length] at h2
  have hc : copied cap = (cap - 1).toNat := copied_short cap (by omega) (by omega)
  rw [get_hint_closed, hc]
  refine ⟨?_, ?_, ?_⟩
  · rw [← hint_take _ (by omega)]
    apply bytes_congr
    intro k hk
    simp only [hk, if_true]
  · simp
  · simp only
    omega

theorem get_hint_truncates_witness :
    (1 : Int) < 5 ∧ (5 : Int) < (hintText.length : Int) ∧
    (bytes (get_hint "R U R2" (fun _ => 170) 5).out ((5 : Int) - 1).toNat =
        (hintText.toList.map Char.toNat).take ((5 : Int) - 1).toNat ∧
    (get_hint "R U R2" (fun _ => 170) 5).out ((5 : Int) - 1).toNat = 0 ∧
    (get_hint "R U R2" (fun _ => 170) 5).ret = 5 - 1) :=
  ⟨by decide, by decide, get_hint_truncates "R U R2" (fun _ => 170) 5 (by decide) (by decide)⟩

/-! ## Stores and the declared capacity -/

/-- With room for at least the terminator, every store lands below the
declared capacity. -/
theorem get_hint_stores_below_cap (s : String) (out : Nat → Nat) (cap : Int)
    (h1 : 1 ≤ cap) (hi : IsI32 cap) :
    ∀ k ∈ (get_hint s out cap).writes, (k : Int) < cap := by
  intro k hk
  rw [get_hint_closed] at hk
  have hlt := List.mem_range.mp hk
  have hs := subI32_one cap hi (by omega)
  unfold copied at hlt
  omega

/-- Claim C4 at capacity 0: the call makes exactly one store, to offset 0, so
not every offset stored to is strictly below the capacity. -/
theorem get_hint_cap_zero_stores :
    (get_hint "R U R2" (fun _ => 170) 0).writes = [0] ∧
    ¬ ∀ k ∈ (get_hint "R U R2" (fun _ => 170) 0).writes, (k : Int) < 0 := by
  have hc : copied 0 = 0 := by decide
  rw [get_hint_closed, hc]
  decide

/-- Claim C5 at capacity 0 on a buffer filled with 0xAA: the call returns 0, but
it has stored the terminator at offset 0, so the buffer is not as it was. -/
theorem get_hint_cap_zero_terminator :
    (get_hint "R U R2" (fun _ => 170) 0).ret = 0 ∧
    (get_hint "R U R2" (fun _ => 170) 0).out 0 = 0 ∧
    (get_hint "R U R2" (fun _ => 170) 0).out ≠ (fun _ => 170) := by
  have hc : copied 0 = 0 := by decide
  rw [get_hint_closed, hc]
  refine ⟨rfl, rfl, ?_⟩
  intro h
  have := congrFun h 0
  simp at this

/-- Claim C6 at negative capacities, on a buffer filled with 0xAA: with
capacity -1 the call returns 0 but stores the terminator at offset 0; with the
minimum `int`, where `out_len - 1` wraps to the maximum `int`, it copies the
whole hint, stores to offsets 0 to 32 and returns 32. -/
theorem get_hint_negative_cap :
    ((get_hint "R U R2" (fun _ => 170) (-1)).ret = 0 ∧
      (get_hint "R U R2" (fun _ => 170) (-1)).writes = [0] ∧
      (get_hint "R U R2" (fun _ => 170) (-1)).out 0 = 0) ∧
    (IsI32 (-2147483648) ∧
      (get_hint "R U R2" (fun _ => 170) (-2147483648)).ret = 32 ∧
      (get_hint "R U R2" (fun _ => 170) (-2147483648)).writes = List.range 33 ∧
      bytes (get_hint "R U R2" (fun _ => 170) (-2147483648)).out 33 =
        hintText.toList.map Char.toNat ++ [0]) := by
  have hc : copied (-1) = 0 := by decide
  have hm : copied (-2147483648) = 32 := by decide
  have e1 := get_hint_closed "R U R2" (fun _ => 170) (-1)
  have e2 := get_hint_closed "R U R2" (fun _ => 170) (-2147483648)
  rw [hc] at e1
  rw [hm] at e2
  rw [e1, e2]
  refine ⟨⟨rfl, rfl, rfl⟩, by decide, rfl, rfl, ?_⟩
  decide

/-! ## The validator -/

/-- Claim C7: `validate_scramble` returns 1 for every input, the empty string and
strings of any length included. -/
theorem validate_scramble_eq_one (s : String) : validate_scramble s = 1 := rfl

/-! ## The returned length -/

/-- Claim C8: for every capacity of at least 1, the byte at the offset equal to
the returned value is the null terminator and lies inside the capacity, every
byte before it is the hint character of that offset and is not null, and the
call made one store per content byte plus one for the terminator: the returned
value is the count of content bytes written. -/
theorem get_hint_ret_counts_content (s : String) (out : Nat → Nat) (cap : Int)
    (h1 : 1 ≤ cap) (hi : IsI32 cap) :
    0 ≤ (get_hint s out cap).ret ∧ (get_hint s out cap).ret < cap ∧
    (get_hint s out cap).out (get_hint s out cap).ret.toNat = 0 ∧
    (∀ k : Nat, (k : Int) < (get_hint s out cap).ret →
      (get_hint s out cap).out k = hintAt k ∧ (get_hint s out cap).out k ≠ 0) ∧
    ((get_hint s out cap).writes.length : Int) = (get_hint s out cap).ret + 1 := by
  have hs := subI32_one cap hi (by omega)
  have hle := copied_le cap
  simp only [get_hint_closed]
  refine ⟨by omega, ?_, ?_, ?_, ?_⟩
  · unfold copied
    omega
  · simp
  · intro k hk
    have hk : k < copied cap := by omega
    simp only [hk, if_true]
    exact ⟨trivial, hintAt_ne_zero k (by omega)⟩
  · simp

theorem get_hint_ret_counts_content_witness :
    (1 : Int) ≤ 5 ∧ IsI32 5 ∧
    (0 ≤ (get_hint "R U R2" (fun _ => 170) 5).ret ∧
    (get_hint "R U R2" (fun _ => 170) 5).ret < 5 ∧
    (get_hint "R U R2" (fun _ => 170) 5).out
      (get_hint "R U R2" (fun _ => 170) 5).ret.toNat = 0 ∧
    (∀ k : Nat, (k : Int) < (get_hint "R U R2" (fun _ => 170) 5).ret →
      (get_hint "R U R2" (fun _ => 170) 5).out k = hintAt k ∧
      (get_hint "R U R2" (fun _ => 170) 5).out k ≠ 0) ∧
    ((get_hint "R U R2" (fun _ => 170) 5).writes.length : Int) =
      (get_hint "R U R2" (fun _ => 170) 5).ret + 1) ∧
    (get_hint "R U R2" (fun _ => 170) 5).ret = 4 ∧
    (get_hint "R U R2" (fun _ => 170) 5).writes = [0, 1, 2, 3, 4] ∧
    bytes (get_hint "R U R2" (fun _ => 170) 5).out 6 = [76, 111, 111, 107, 0, 170] := by
  refine ⟨by decide, by decide,
    get_hint_ret_counts_content "R U R2" (fun _ => 170) 5 (by decide) (by decide), ?_⟩
  have hc : copied 5 = 4 := by decide
  rw [get_hint_closed, hc]
  refine ⟨rfl, rfl, ?_⟩
  decide

/-! ## Independence of the scramble, and repeated calls -/

/-- Claim C9: for any two scrambles, `get_hint` on the same buffer and capacity
leaves the same buffer, makes the same stores and returns the same value. -/
theorem get_hint_ignores_scramble (s1 s2 : String) (out : Nat → Nat) (cap : Int) :
    get_hint s1 out cap = get_hint s2 out cap := rfl

/-- Claim C10: a second call of `get_hint`, with the same scramble and capacity,
on the buffer left by the first call returns the same length as the first and
leaves that buffer unchanged. -/
theorem get_hint_idempotent (s : String) (out : Nat → Nat) (cap : Int) :
    (get_hint s (get_hint s out cap).out cap).ret = (get_hint s out cap).ret ∧
    (get_hint s (get_hint s out cap).out cap).out = (get_hint s out cap).out := by
  simp only [get_hint_closed]
  refine ⟨trivial, ?_⟩
  funext k
  by_cases h : k < copied cap
  · simp [h]
  · by_cases h2 : k = copied cap
    · simp [h2]
    · simp [h, h2]

/-! ## The frame of the call, and the returned length as a function of the capacity -/

/-- Claim C11: for every capacity and every initial buffer, `get_hint` leaves
each byte at an offset strictly greater than its return value as it was, and
every offset it stores to is at most the return value: only offsets 0 to the
return value are modified. -/
theorem get_hint_frame (s : String) (out : Nat → Nat) (cap : Int) :
    (∀ k : Nat, (get_hint s out cap).ret < (k : Int) → (get_hint s out cap).out k = out k) ∧
    (∀ k ∈ (get_hint s out cap).writes, (k : Int) ≤ (get_hint s out cap).ret) := by
  simp only [get_hint_closed]
  constructor
  · intro k hk
    have h1 : ¬ k < copied cap := by omega
    have h2 : ¬ k = copied cap := by omega
    simp only [h1, h2, if_false]
  · intro k hk
    have := List.mem_range.mp hk
    omega

/-- Claim C12: for every 32-bit capacity other than the minimum `int` (so that
`cap - 1` does not overflow), `get_hint` returns
`min (length of the hint) (max (cap - 1) 0)`; the value lies between 0 and the
length of the hint, and a capacity at least as large, in the same range, gives
a return value at least as large. -/
theorem get_hint_ret_formula (s : String) (out : Nat → Nat) (cap : Int)
    (hi : IsI32 cap) (hmin : cap ≠ -2147483648) :
    (get_hint s out cap).ret = min (hintText.length : Int) (max (cap - 1) 0) ∧
    0 ≤ (get_hint s out cap).ret ∧
    (get_hint s out cap).ret ≤ (hintText.length : Int) ∧
    (∀ (s2 : String) (out2 : Nat → Nat) (cap2 : Int), IsI32 cap2 → cap ≤ cap2 →
      (get_hint s out cap).ret ≤ (get_hint s2 out2 cap2).ret) := by
  have hs := subI32_one cap hi hmin
  have hle := copied_le cap
  simp only [get_hint_closed, hintText_length]
  refine ⟨?_, by omega, by omega, ?_⟩
  · unfold copied
    omega
  · intro _ _ cap2 hi2 h12
    have hs2 := subI32_one cap2 hi2 (by unfold IsI32 at hi; omega)
    unfold copied
    omega

theorem get_hint_ret_formula_witness :
    IsI32 7 ∧ (7 : Int) ≠ -2147483648 ∧
    ((get_hint "R U R2" (fun _ => 170) 7).ret = min (hintText.length : Int) (max (7 - 1) 0) ∧
    0 ≤ (get_hint "R U R2" (fun _ => 170) 7).ret ∧
    (get_hint "R U R2" (fun _ => 170) 7).ret ≤ (hintText.length : Int) ∧
    (∀ (s2 : String) (out2 : Nat → Nat) (cap2 : Int), IsI32 cap2 → 7 ≤ cap2 →
      (get_hint "R U R2" (fun _ => 170) 7).ret ≤ (get_hint s2 out2 cap2).ret)) :=
  ⟨by decide, by decide,
    get_hint_ret_formula "R U R2" (fun _ => 170) 7 (by decide) (by decide)⟩

end Solver
